import Mathlib

/-
Verification development for the lock-free doubly linked list
(header lockfreelist.h and the tagged variant in namespace ut).

The C++ code is embedded shallowly as a sequential (single-mutator)
semantics: the heap of intrusive nodes is a total function from node
identifiers (Nat) to a pair of linkage fields, lists carry head and
tail fields, and every compare-and-set is resolved deterministically
against the current state, exactly as a single thread would observe it.
Retry loops are given explicit fuel; a result of none models a retry
loop that a single thread can never exit.  Payloads are identified
with node identifiers, since the list code never inspects payloads
except through a caller predicate.
-/

namespace LockFree

/-- Linkage fields of one intrusive node: the m next and m prev words. -/
structure NodeSt where
  next : Option Nat
  prev : Option Nat
deriving DecidableEq, Repr

/-- The node heap: every node identifier has a linkage state. -/
def Heap := Nat → NodeSt

/-- Pointwise heap update, modelling a store to one node. -/
def upd (h : Heap) (n : Nat) (v : NodeSt) : Heap :=
  fun m => if m = n then v else h m

/-- State of a Lock free list object: heap plus m head and m tail. -/
structure ListSt where
  heap : Heap
  head : Option Nat
  tail : Option Nat

/-- A freshly constructed list: both endpoint words null, all nodes null. -/
def emptyList : ListSt :=
  { heap := fun _ => ⟨none, none⟩, head := none, tail := none }

/-- Sequential semantics of Lock free list push front (lockfreelist.h
lines 250 to 279).  The node linkage is nulled, its next word is set to
the loaded head, the head CAS succeeds on the first iteration for a
single mutator, and then either the old head prev word or the tail word
is repaired.  Prefetch calls are pure loads and are omitted. -/
def push_front (s : ListSt) (n : Nat) : ListSt :=
  let h1 := upd s.heap n ⟨none, none⟩
  let oldHead := s.head
  let h2 := upd h1 n ⟨oldHead, (h1 n).prev⟩
  match oldHead with
  | some oh => { heap := upd h2 oh ⟨(h2 oh).next, some n⟩, head := some n, tail := s.tail }
  | none => { heap := h2, head := some n, tail := some n }

/-- Sequential semantics of Lock free list push back (lockfreelist.h
lines 321 to 356).  On an empty list the head CAS installs the node and
the tail is stored; for a single mutator the CAS cannot fail.  When the
tail is null but the head is not, the code retries forever with an
unchanged state, which the model reports as none.  In the nonempty case
the node prev word and the old tail next word are stored and the tail
CAS succeeds on the first iteration. -/
def push_back (s : ListSt) (n : Nat) : Option ListSt :=
  let h1 := upd s.heap n ⟨none, none⟩
  match s.tail with
  | none =>
      if s.head = none then
        some { heap := h1, head := some n, tail := some n }
      else
        none
  | some t =>
      let h2 := upd h1 n ⟨(h1 n).next, some t⟩
      let h3 := upd h2 t ⟨some n, (h2 t).prev⟩
      some { heap := h3, head := s.head, tail := some n }

/-- Sequential semantics of Lock free list remove (lockfreelist.h lines
282 to 318).  Both neighbour words are loaded first.  With a non null
prev the prev next word gets a plain store; otherwise the head word is
updated by a strong CAS whose expected register is the node argument
and is overwritten with the observed head on failure.  Then either the
next prev word gets a plain store or the tail CAS runs against the
possibly overwritten expected register. -/
def remove (s : ListSt) (node : Nat) : ListSt :=
  let pv := (s.heap node).prev
  let nx := (s.heap node).next
  let step1 : ListSt × Option Nat :=
    match pv with
    | some p => ({ heap := upd s.heap p ⟨nx, (s.heap p).prev⟩,
                   head := s.head, tail := s.tail }, some node)
    | none =>
        if s.head = some node then
          ({ heap := s.heap, head := nx, tail := s.tail }, some node)
        else
          (s, s.head)
  let s1 := step1.1
  let expReg := step1.2
  match nx with
  | some m => { heap := upd s1.heap m ⟨(s1.heap m).next, pv⟩,
                head := s1.head, tail := s1.tail }
  | none => if s1.tail = expReg then { heap := s1.heap, head := s1.head, tail := pv } else s1

/-- Sequential semantics of the retry loop of Lock free list insert
after (lockfreelist.h lines 359 to 409).  Each iteration loads the
target next word, pre validates membership through the target prev word
or the head word, stores the new node links, runs the CAS on the target
next word, and repairs either the next node prev word or the tail word;
a failed tail CAS continues the loop.  The fuel argument bounds the
iterations; none means the fuel ran out. -/
def insertAfterLoop : Nat → ListSt → Nat → Nat → Option (Bool × ListSt)
  | 0, _, _, _ => none
  | Nat.succ f, s, node, newNode =>
    let next := (s.heap node).next
    let prevCheck := (s.heap node).prev
    let valid : Bool :=
      match prevCheck with
      | some pc => (s.heap pc).next == some node
      | none => s.head == some node
    if valid then
      let h2 := upd s.heap newNode ⟨next, some node⟩
      if (h2 node).next = next then
        let h3 := upd h2 node ⟨some newNode, (h2 node).prev⟩
        match next with
        | some nx =>
            some (true, { heap := upd h3 nx ⟨(h3 nx).next, some newNode⟩,
                          head := s.head, tail := s.tail })
        | none =>
            if s.tail = some node then
              some (true, { heap := h3, head := s.head, tail := some newNode })
            else
              insertAfterLoop f { heap := h3, head := s.head, tail := s.tail } node newNode
      else
        insertAfterLoop f { heap := h2, head := s.head, tail := s.tail } node newNode
    else
      some (false, s)

/-- Lock free list insert after: the new node linkage is nulled before
the retry loop starts. -/
def insert_after (s : ListSt) (node newNode : Nat) (fuel : Nat) : Option (Bool × ListSt) :=
  insertAfterLoop fuel { heap := upd s.heap newNode ⟨none, none⟩,
                         head := s.head, tail := s.tail } node newNode

/-- Forward traversal from a start pointer following next words, with
fuel; mirrors the walk done by the tests and by print. -/
def traverseFwd : Nat → Heap → Option Nat → List Nat
  | 0, _, _ => []
  | Nat.succ _, _, none => []
  | Nat.succ f, h, some n => n :: traverseFwd f h (h n).next

/-- Push a sequence of nodes with push front. -/
def pushFrontAll (s : ListSt) (l : List Nat) : ListSt :=
  l.foldl push_front s

/-- Push a sequence of nodes with push back, propagating the fuel out
condition of the model. -/
def pushBackAll (s : ListSt) (l : List Nat) : Option ListSt :=
  l.foldlM push_back s

/-- The doubly linked chain predicate: walking the list of identifiers,
every node prev word names the preceding node (p before the first) and
every node next word names the following node (null after the last). -/
def chainOk (h : Heap) : Option Nat → List Nat → Bool
  | _, [] => true
  | p, n :: rest =>
      ((h n).prev == p) && ((h n).next == rest.head?) && chainOk h (some n) rest

/-- A quiescent list state representing the abstract sequence L of node
identifiers: the head and tail words name the ends, the chain predicate
holds from a null predecessor, and the identifiers are distinct. -/
def represents (s : ListSt) (L : List Nat) : Prop :=
  s.head = L.head? ∧ s.tail = L.getLast? ∧ chainOk s.heap none L = true ∧ L.Nodup

/-- Inner walk of Lock free list find if (lockfreelist.h lines 413 to
458): scan from the head; on a predicate match validate liveness
through the neighbour back words or the endpoint words; some (some c)
is a validated match, some none is the null end of the walk, none is
either a liveness break (restart of the outer loop) or fuel running
out. -/
def findWalk (h : Heap) (hd tl : Option Nat) (pred : Nat → Bool) : Nat → Option Nat → Option (Option Nat)
  | 0, _ => none
  | Nat.succ _, none => some none
  | Nat.succ f, some c =>
    if pred c then
      let nx := (h c).next
      let pv := (h c).prev
      let ok1 : Bool :=
        match nx with
        | some nn => (h nn).prev == some c
        | none => tl == some c
      let ok2 : Bool :=
        match pv with
        | some pp => (h pp).next == some c
        | none => hd == some c
      if ok1 && ok2 then some (some c) else none
    else
      findWalk h hd tl pred f ((h c).next)

/-- Outer restart loop of Lock free list find if, with restart fuel. -/
def find_if (s : ListSt) (pred : Nat → Bool) : Nat → Nat → Option (Option Nat)
  | 0, _ => none
  | Nat.succ f, innerFuel =>
    match findWalk s.heap s.head s.tail pred innerFuel s.head with
    | some r => some r
    | none => find_if s pred f innerFuel

/-- Lock free list find: find if specialised to payload equality
against a valuation of the nodes (lockfreelist.h lines 461 to 465). -/
def find (s : ListSt) (val : Nat → Int) (v : Int) (outerFuel innerFuel : Nat) : Option (Option Nat) :=
  find_if s (fun n => val n == v) outerFuel innerFuel

/-- Iterator state: the current node and the remembered previous node. -/
structure Iter where
  node : Option Nat
  prv : Option Nat
deriving DecidableEq, Repr

/-- Result of an iterator step: a new position, a thrown runtime error,
a null pointer dereference (undefined behaviour in the C++ source), or
exhausted recovery fuel. -/
inductive IterRes where
  | ok (it : Iter)
  | thrown (msg : String)
  | nullDeref
  | fuelOut
deriving DecidableEq, Repr

/-- Iterator returned by begin: the head word and a null previous. -/
def beginIter (s : ListSt) : Iter := ⟨s.head, none⟩

/-- Iterator returned by end: a null current and the tail word. -/
def endIter (s : ListSt) : Iter := ⟨none, s.tail⟩

/-- Result of an iterator dereference: the payload view, identified
with the node identifier, or a thrown runtime error. -/
inductive RefRes where
  | ok (val : Nat)
  | thrown (msg : String)
deriving DecidableEq, Repr

/-- Dereference of an iterator (operator star, lines 51 to 56): throws
on a null current node, otherwise yields the payload view, here the
node identifier. -/
def iterStar (it : Iter) : RefRes :=
  match it.node with
  | none => RefRes.thrown "Dereferencing null iterator"
  | some c => RefRes.ok c

/-- Recovery walk of operator plus plus: while the current node is non
null and its prev word disagrees with the remembered previous, advance
along next words, refreshing the remembered previous. -/
def incRecoverLoop (h : Heap) : Nat → Option Nat → Option Nat → IterRes
  | 0, _, _ => IterRes.fuelOut
  | Nat.succ f, node, prv =>
    match node with
    | none => IterRes.ok ⟨none, prv⟩
    | some c =>
      if (h c).prev = prv then IterRes.ok ⟨some c, prv⟩
      else
        match (h c).next with
        | some c2 => incRecoverLoop h f (some c2) ((h c2).prev)
        | none => incRecoverLoop h f none prv

/-- Pre increment of iterator (lines 65 to 88): throws on a null
current node before touching any state; otherwise validates the prev
word and either steps or runs the recovery walk. -/
def iterInc (h : Heap) (fuel : Nat) (it : Iter) : IterRes :=
  match it.node with
  | none => IterRes.thrown "Incrementing null iterator"
  | some c =>
    let nx := (h c).next
    if (h c).prev = it.prv then IterRes.ok ⟨nx, some c⟩
    else incRecoverLoop h fuel (some c) it.prv

/-- Pre increment of const iterator (lines 172 to 192): identical
control flow to the mutable iterator. -/
def citerInc (h : Heap) (fuel : Nat) (it : Iter) : IterRes :=
  match it.node with
  | none => IterRes.thrown "Incrementing null iterator"
  | some c =>
    let nx := (h c).next
    if (h c).prev = it.prv then IterRes.ok ⟨nx, some c⟩
    else incRecoverLoop h fuel (some c) it.prv

/-- Recovery walk of operator minus minus: while the remembered
previous is non null and its next word disagrees with the current node,
step back along prev words, refreshing the current node. -/
def decRecoverLoop (h : Heap) : Nat → Option Nat → Option Nat → IterRes
  | 0, _, _ => IterRes.fuelOut
  | Nat.succ f, node, prv =>
    match prv with
    | none => IterRes.ok ⟨node, none⟩
    | some p =>
      if (h p).next = node then IterRes.ok ⟨node, some p⟩
      else
        match (h p).prev with
        | some p2 => decRecoverLoop h f ((h p2).next) (some p2)
        | none => decRecoverLoop h f node none

/-- Pre decrement of iterator (lines 97 to 120): the guard tests the
current node for null and throws there; with a non null current node it
dereferences the remembered previous unconditionally, which is a null
pointer dereference when that member is null; otherwise it validates
and either steps back or runs the recovery walk. -/
def iterDec (h : Heap) (fuel : Nat) (it : Iter) : IterRes :=
  match it.node with
  | none => IterRes.thrown "Decrementing begin iterator"
  | some _ =>
    match it.prv with
    | none => IterRes.nullDeref
    | some p =>
      let pr := (h p).prev
      if (h p).next = it.node then IterRes.ok ⟨some p, pr⟩
      else decRecoverLoop h fuel it.node (some p)

/-- Pre decrement of const iterator (lines 200 to 220): the guard tests
the remembered previous for null and throws there, then validates and
either steps back or runs the recovery walk. -/
def citerDec (h : Heap) (fuel : Nat) (it : Iter) : IterRes :=
  match it.prv with
  | none => IterRes.thrown "Decrementing begin iterator"
  | some p =>
    let pr := (h p).prev
    if (h p).next = it.node then IterRes.ok ⟨some p, pr⟩
    else decRecoverLoop h fuel it.node (some p)

/-- The list built by push front of 1 then 2 then 3, holding 3, 2, 1. -/
def S321 : ListSt := pushFrontAll emptyList [1, 2, 3]

/-- The previous list after remove of node 2. -/
def S31 : ListSt := remove S321 2

/-- The list holding 1, 2, built by push front of 2 then 1. -/
def S12 : ListSt := pushFrontAll emptyList [2, 1]

end LockFree

namespace ut

/-- Version mask of the tagged pointer, exactly as in the source
(part 003 line 15): only bit 2 is set. -/
def version_mask : Nat := 0x4

/-- Pointer mask of the tagged pointer (part 003 line 16): the low four
bits are cleared. -/
def ptr_mask : Nat := 0xFFFFFFFFFFFFFFF0

/-- A tagged linkage word of the ut variant: one machine word packing a
pointer and a version. -/
structure Tag where
  m_ptr : Nat
deriving DecidableEq, Repr

/-- The Tag constructor taking a pointer value and a version: the
pointer is masked and the version bits are merged in. -/
def Tag.make (ptr version : Nat) : Tag :=
  ⟨(ptr &&& ptr_mask) ||| version⟩

/-- The version accessor of Tag: the stored word masked with the
version mask. -/
def Tag.version (t : Tag) : Nat := t.m_ptr &&& version_mask

/-- The pointer component of Tag. -/
def Tag.ptr (t : Tag) : Nat := t.m_ptr &&& ptr_mask

/-- The null tag stored by Node init and the list constructor. -/
def nullTag : Tag := ⟨0⟩

/-- The value installed into a linkage word by a successful CAS of the
ut variant, as built at every CAS site of push front, push back, remove
and insert after: the new pointer with the old version plus one. -/
def casNewValue (old : Tag) (node : Nat) : Tag :=
  Tag.make node (Tag.version old + 1)

end ut

namespace LockFree

/-- The one element list built by push front of 1. -/
def S1 : ListSt := push_front emptyList 1

/-- Heaps updated twice at the same node keep only the second store. -/
theorem upd_upd_same (h : Heap) (n : Nat) (v w : NodeSt) :
    upd (upd h n v) n w = upd h n w := by
  funext m
  by_cases hm : m = n <;> simp [upd, hm]

/-- Reading the updated node returns the stored value. -/
theorem upd_self (h : Heap) (n : Nat) (v : NodeSt) : upd h n v n = v := by
  simp [upd]

/-- Reading another node is unaffected by an update. -/
theorem upd_other {h : Heap} {m n : Nat} {v : NodeSt} (hne : m ≠ n) :
    upd h n v m = h m := by
  simp [upd, hne]

/-- Push front depends on the incoming state only through the nulled
heap and the endpoint words. -/
theorem push_front_init_congr (s1 s2 : ListSt) (n : Nat)
    (hh : upd s1.heap n ⟨none, none⟩ = upd s2.heap n ⟨none, none⟩)
    (hd : s1.head = s2.head) (tl : s1.tail = s2.tail) :
    push_front s1 n = push_front s2 n := by
  simp only [push_front]
  rw [hh, hd, tl]

/-- Push back depends on the incoming state only through the nulled
heap and the endpoint words. -/
theorem push_back_init_congr (s1 s2 : ListSt) (n : Nat)
    (hh : upd s1.heap n ⟨none, none⟩ = upd s2.heap n ⟨none, none⟩)
    (hd : s1.head = s2.head) (tl : s1.tail = s2.tail) :
    push_back s1 n = push_back s2 n := by
  simp only [push_back]
  rw [hh, hd, tl]

end LockFree

namespace LockFree

/-- C7: pushing the values 1, 2, 3, 4, 5 with push front into an empty
list and traversing forward from the head visits exactly 5, 4, 3, 2, 1. -/
theorem push_front_five_trace :
    traverseFwd 5 (pushFrontAll emptyList [1, 2, 3, 4, 5]).heap
      (pushFrontAll emptyList [1, 2, 3, 4, 5]).head = [5, 4, 3, 2, 1] := by
  decide

/-- C2: after push front of 1 then 2 then 3 and remove of node 2, the
forward traversal visits exactly 3 then 1 and node 2 is unreachable
from the head; backward traversal from end succeeds only through the
const iterator, yielding 1 then 3 and then the begin error, while the
mutable iterator decrement of end throws at once because its guard
tests the current node, which is null at end, instead of the stored
previous node. -/
theorem remove_middle_trace :
    traverseFwd 3 S31.heap S31.head = [3, 1]
    ∧ 2 ∉ traverseFwd 3 S31.heap S31.head
    ∧ iterDec S31.heap 5 (endIter S31) = IterRes.thrown "Decrementing begin iterator"
    ∧ citerDec S31.heap 5 (endIter S31) = IterRes.ok ⟨some 1, some 3⟩
    ∧ iterStar ⟨some 1, some 3⟩ = RefRes.ok 1
    ∧ citerDec S31.heap 5 ⟨some 1, some 3⟩ = IterRes.ok ⟨some 3, none⟩
    ∧ iterStar ⟨some 3, none⟩ = RefRes.ok 3
    ∧ citerDec S31.heap 5 ⟨some 3, none⟩ = IterRes.thrown "Decrementing begin iterator" := by
  decide

/-- C4: on the quiescent list holding 1, 2, insert after of node 3
behind node 2 returns true, the tail word is repaired to node 3, and
forward traversal yields exactly 1, 2, 3. -/
theorem insert_after_tail_trace :
    (insert_after S12 2 3 1).map
      (fun r => (r.1, r.2.tail, traverseFwd 3 r.2.heap r.2.head))
    = some (true, some 3, [1, 2, 3]) := by
  decide

/-- C6: dereferencing an iterator whose current node is null throws the
null iterator error, and the const iterator decrement of begin throws;
but the mutable iterator decrement of begin on a non empty list
dereferences its null stored previous node, undefined behaviour, since
its guard tests the wrong member. -/
theorem iterator_guard_trace :
    iterStar ⟨none, some 1⟩ = RefRes.thrown "Dereferencing null iterator"
    ∧ iterStar (endIter S1) = RefRes.thrown "Dereferencing null iterator"
    ∧ iterDec S1.heap 5 (beginIter S1) = IterRes.nullDeref
    ∧ citerDec S1.heap 5 (beginIter S1) = IterRes.thrown "Decrementing begin iterator" := by
  decide

/-- C9: the outcome of push front and of push back does not depend on
the prior contents of the linkage words of the incoming node, because
both operations store null into both words before any other access. -/
theorem push_stale_link_independent (s : ListSt) (n : Nat) (v1 v2 : NodeSt) :
    push_front { s with heap := upd s.heap n v1 } n
      = push_front { s with heap := upd s.heap n v2 } n
    ∧ push_back { s with heap := upd s.heap n v1 } n
      = push_back { s with heap := upd s.heap n v2 } n := by
  constructor
  · apply push_front_init_congr <;> simp [upd_upd_same]
  · apply push_back_init_congr <;> simp [upd_upd_same]

/-- C10: incrementing an iterator whose current node is null, including
end, throws the incrementing null iterator error before any member or
list state is touched, for both the mutable and the const iterator. -/
theorem inc_null_iterator_throws (h : Heap) (fuel : Nat) (p : Option Nat) :
    iterInc h fuel ⟨none, p⟩ = IterRes.thrown "Incrementing null iterator"
    ∧ citerInc h fuel ⟨none, p⟩ = IterRes.thrown "Incrementing null iterator" :=
  ⟨rfl, rfl⟩

end LockFree

namespace ut

/-- C1: the version tag of the tagged variant is not strictly monotonic
and repeats well before 16 successful updates.  Starting from the null
word, successive successful CAS values installing node addresses 16,
32, 16 produce the words 17, 33, 17: the third word equals the first
after only two further updates, and the version accessor reads 0 on a
word whose stored version bits are 1, because the version mask is 0x4
rather than 0xF. -/
theorem tag_version_not_monotonic :
    casNewValue (casNewValue (casNewValue nullTag 16) 32) 16 = casNewValue nullTag 16
    ∧ Tag.version (casNewValue (casNewValue nullTag 16) 32)
        = Tag.version (casNewValue nullTag 16)
    ∧ (casNewValue nullTag 16).m_ptr = 17
    ∧ (casNewValue (casNewValue nullTag 16) 32).m_ptr = 33
    ∧ Tag.version (casNewValue nullTag 16) = 0 := by
  decide

end ut

namespace LockFree

/-- A chain traversed with exactly its length of fuel reproduces the
abstract sequence. -/
theorem traverse_of_chain (h : Heap) :
    ∀ (M : List Nat) (p : Option Nat), chainOk h p M = true →
      traverseFwd M.length h M.head? = M := by
  intro M
  induction M with
  | nil => intro p _; rfl
  | cons n rest ih =>
      intro p hc
      simp only [chainOk, Bool.and_eq_true, beq_iff_eq] at hc
      obtain ⟨⟨hp, hn⟩, hrest⟩ := hc
      simp only [List.length_cons, List.head?_cons, traverseFwd]
      rw [hn, ih (some n) hrest]

/-- Unfolding of the chain predicate over a cons cell. -/
theorem chainOk_cons_iff (h : Heap) (p : Option Nat) (n : Nat) (rest : List Nat) :
    chainOk h p (n :: rest) = true
      ↔ (h n).prev = p ∧ (h n).next = rest.head? ∧ chainOk h (some n) rest = true := by
  simp only [chainOk, Bool.and_eq_true, beq_iff_eq, and_assoc]

/-- Appending a fresh node a behind the last node t preserves the chain
predicate, for any heap g that stores the two new linkage words and
agrees with the old heap elsewhere on the chain. -/
theorem chainOk_snoc (h g : Heap) (a t : Nat)
    (hga : g a = ⟨none, some t⟩)
    (hgt : g t = ⟨some a, (h t).prev⟩) :
    ∀ (M : List Nat) (p : Option Nat),
      chainOk h p M = true → M.getLast? = some t → a ∉ M → M.Nodup →
      (∀ n, n ∈ M → n ≠ t → g n = h n) →
      chainOk g p (M ++ [a]) = true := by
  intro M
  induction M with
  | nil =>
      intro p _ hlast _ _ _
      simp at hlast
  | cons x rest ih =>
      intro p hc hlast ha hd hoth
      cases rest with
      | nil =>
          have hxt : x = t := by
            simpa using hlast
          subst hxt
          simp only [chainOk, Bool.and_eq_true, beq_iff_eq] at hc
          obtain ⟨⟨hp, hn⟩, _⟩ := hc
          simp [chainOk, hgt, hga, hp]
      | cons y rest2 =>
          obtain ⟨hp, hn, hrest⟩ := (chainOk_cons_iff h p x (y :: rest2)).mp hc
          have hlast2 : (y :: rest2).getLast? = some t := by
            rw [List.getLast?_cons_cons] at hlast
            exact hlast
          have htmem : t ∈ y :: rest2 := List.mem_of_getLast?_eq_some hlast2
          have hxrest : x ∉ y :: rest2 := by
            rcases List.nodup_cons.mp hd with ⟨hx, _⟩
            exact hx
          have hxt : x ≠ t := fun he => hxrest (he ▸ htmem)
          have hxa : x ≠ a := by
            intro he
            exact ha (by simp [he])
          have hgx : g x = h x := hoth x (by simp) hxt
          have ha2 : a ∉ y :: rest2 := fun hm => ha (by simp [hm])
          have hd2 : (y :: rest2).Nodup := (List.nodup_cons.mp hd).2
          have hoth2 : ∀ n, n ∈ y :: rest2 → n ≠ t → g n = h n :=
            fun n hm hnt => hoth n (by simp [hm]) hnt
          have hrec := ih (some x) hrest hlast2 ha2 hd2 hoth2
          refine (chainOk_cons_iff g p x ((y :: rest2) ++ [a])).mpr ⟨?_, ?_, hrec⟩
          · rw [hgx]; exact hp
          · rw [hgx, hn]; rfl

/-- Push back on a quiescent list appends the fresh node at the back of
the represented sequence. -/
theorem push_back_represents (s : ListSt) (L : List Nat) (a : Nat)
    (hr : represents s L) (ha : a ∉ L) :
    ∃ s2, push_back s a = some s2 ∧ represents s2 (L ++ [a]) := by
  obtain ⟨sheap, shead, stail⟩ := s
  obtain ⟨hh, ht, hc, hd⟩ := hr
  simp only at hh ht hc
  cases L with
  | nil =>
      have ht2 : stail = none := by simpa using ht
      have hh2 : shead = none := by simpa using hh
      subst ht2; subst hh2
      refine ⟨_, rfl, ?_, ?_, ?_, ?_⟩
      · rfl
      · rfl
      · simp [chainOk, upd]
      · simp
  | cons x rest =>
      have hne : (x :: rest : List Nat) ≠ [] := by simp
      have hlast : (x :: rest).getLast? = some ((x :: rest).getLast hne) :=
        List.getLast?_eq_getLast_of_ne_nil hne
      set t := (x :: rest).getLast hne with htdef
      have htmem : t ∈ x :: rest := List.mem_of_getLast?_eq_some hlast
      have hta : t ≠ a := fun he => ha (he ▸ htmem)
      have ht2 : stail = some t := by rw [ht, hlast]
      subst ht2
      refine ⟨_, rfl, ?_, ?_, ?_, ?_⟩
      · simpa using hh
      · exact (List.getLast?_concat _).symm
      · apply chainOk_snoc sheap _ a t
        · simp [upd, Ne.symm hta]
        · simp [upd, hta, Ne.symm hta]
        · exact hc
        · exact hlast
        · exact ha
        · exact hd
        · intro n hm hnt
          have hna : n ≠ a := fun he => ha (he ▸ hm)
          simp [upd, hnt, hna]
      · exact List.Nodup.append hd (List.nodup_singleton a) (by
          intro b hb hb2
          simp at hb2
          exact ha (hb2 ▸ hb))

end LockFree

namespace LockFree

/-- C3: pushing the values 1 through 5 with push back yields forward
traversal 1, 2, 3, 4, 5; and for a single mutator on any quiescent
list, push back of a and then of b appends them in that order, so a
precedes b in the resulting traversal. -/
theorem push_back_order :
    ((pushBackAll emptyList [1, 2, 3, 4, 5]).map
        (fun s => traverseFwd 5 s.heap s.head) = some [1, 2, 3, 4, 5])
    ∧ (∀ (s : ListSt) (L : List Nat) (a b : Nat),
        represents s L → a ∉ L → b ∉ L → a ≠ b →
        ∃ sa sb, push_back s a = some sa ∧ push_back sa b = some sb
          ∧ traverseFwd (L.length + 2) sb.heap sb.head = L ++ [a, b]) := by
  constructor
  · decide
  · intro s L a b hr ha hb hab
    obtain ⟨sa, hea, hra⟩ := push_back_represents s L a hr ha
    have hb2 : b ∉ L ++ [a] := by
      simp only [List.mem_append, List.mem_singleton]
      rintro (hbL | hba)
      · exact hb hbL
      · exact hab hba.symm
    obtain ⟨sb, heb, hrb⟩ := push_back_represents sa (L ++ [a]) b hra hb2
    refine ⟨sa, sb, hea, heb, ?_⟩
    have htr := traverse_of_chain sb.heap (L ++ [a] ++ [b]) none hrb.2.2.1
    have hlen : (L ++ [a] ++ [b]).length = L.length + 2 := by simp
    rw [hrb.1, ← hlen, htr]
    simp

/-- Witness for the push back order theorem at a concrete input. -/
theorem push_back_order_witness :
    ∃ sa sb, push_back emptyList 1 = some sa ∧ push_back sa 2 = some sb
      ∧ traverseFwd 2 sb.heap sb.head = [1, 2] :=
  push_back_order.2 emptyList [] 1 2 ⟨rfl, rfl, rfl, List.nodup_nil⟩
    (by simp) (by simp) (by decide)

/-- Facts available at any member of a quiescent chain: the prev word
of a member names a chain member whose next word returns to it, or the
member is first and the head word names it; and a null next word forces
the tail word to name the member. -/
theorem chain_member_links (h : Heap) (hd tl : Option Nat) (L : List Nat) :
    ∀ (M : List Nat) (p : Option Nat),
      chainOk h p M = true →
      (∀ x, x ∈ M → x ∈ L) →
      (match p with
       | none => hd = M.head?
       | some pp => pp ∈ L ∧ (h pp).next = M.head?) →
      ((match M.getLast? with | some z => some z | none => p) = tl) →
      ∀ c, c ∈ M →
        ((match (h c).prev with
          | none => hd = some c
          | some pc => pc ∈ L ∧ (h pc).next = some c)
         ∧ ((h c).next = none → tl = some c)) := by
  intro M
  induction M with
  | nil =>
      intro p _ _ _ _ c hcmem
      simp at hcmem
  | cons x rest ih =>
      intro p hchain hsub hp htl c hcmem
      obtain ⟨hxp, hxn, hrest⟩ := (chainOk_cons_iff h p x rest).mp hchain
      rcases List.mem_cons.mp hcmem with hcx | hcr
      · subst hcx
        constructor
        · rw [hxp]
          cases p with
          | none => simpa using hp
          | some pp => exact ⟨hp.1, hp.2⟩
        · intro hnone
          rw [hxn] at hnone
          have hrestnil : rest = [] := by
            cases rest with
            | nil => rfl
            | cons _ _ => simp at hnone
          subst hrestnil
          simpa using htl.symm
      · refine ih (some x) hrest (fun z hz => hsub z (List.mem_cons_of_mem x hz))
          ⟨hsub x (List.mem_cons_self x rest), hxn⟩ ?_ c hcr
        cases rest with
        | nil => simp at hcr
        | cons y rest2 =>
            have hne2 : (y :: rest2 : List Nat) ≠ [] := by simp
            have hw := List.getLast?_eq_getLast_of_ne_nil hne2
            rw [List.getLast?_cons_cons, hw] at htl
            rw [hw]
            exact htl

end LockFree

namespace LockFree

/-- C5: on every quiescent list in which the target is a member, insert
after of a fresh node returns true; by the shape of the code a false
return arises only from the pre validation branch, which this theorem
shows cannot fire for a member target. -/
theorem insert_after_member (s : ListSt) (L : List Nat) (t w : Nat)
    (hr : represents s L) (hmem : t ∈ L) (hw : w ∉ L) :
    ∃ s2, insert_after s t w 1 = some (true, s2) := by
  obtain ⟨hh, ht, hc, hd⟩ := hr
  have htw : t ≠ w := fun he => hw (he ▸ hmem)
  have htl : (match L.getLast? with | some z => some z | none => (none : Option Nat)) = s.tail := by
    cases hLl : L.getLast? with
    | none => simp [ht, hLl]
    | some z => simp [ht, hLl]
  have hfacts := chain_member_links s.heap s.head s.tail L L none hc
    (fun z hz => hz) hh htl t hmem
  obtain ⟨sheap, shead, stail⟩ := s
  simp only at hh ht hc hfacts htl htw ⊢
  have hinit : upd sheap w ⟨none, none⟩ t = sheap t := upd_other htw
  unfold insert_after insertAfterLoop
  simp only [hinit]
  have hvalid : (match (sheap t).prev with
      | some pc => (upd sheap w ⟨none, none⟩ pc).next == some t
      | none => shead == some t) = true := by
    cases hpv : (sheap t).prev with
    | none =>
        rw [hpv] at hfacts
        obtain ⟨hhead, -⟩ := hfacts
        show (shead == some t) = true
        rw [hhead]
        exact beq_self_eq_true _
    | some pc =>
        rw [hpv] at hfacts
        obtain ⟨⟨hpcL, hpcn⟩, -⟩ := hfacts
        have hpcw : pc ≠ w := fun he => hw (he ▸ hpcL)
        show ((upd sheap w ⟨none, none⟩ pc).next == some t) = true
        rw [upd_other hpcw, hpcn]
        exact beq_self_eq_true _
  rw [hvalid]
  simp only [if_true]
  rw [upd_upd_same, upd_other htw]
  rw [if_pos rfl]
  cases hnx : (sheap t).next with
  | some nx => exact ⟨_, rfl⟩
  | none =>
      have hst : stail = some t := hfacts.2 hnx
      rw [hst, if_pos rfl]
      exact ⟨_, rfl⟩

/-- Witness for the insert after membership theorem at a concrete
input: the two element list with target node 2 and fresh node 3. -/
theorem insert_after_member_witness :
    ∃ s2, insert_after S12 2 3 1 = some (true, s2) :=
  insert_after_member S12 [1, 2] 2 3
    ⟨by decide, by decide, by decide, by decide⟩ (by decide) (by decide)

end LockFree

namespace LockFree

/-- The inner walk of find if on a quiescent chain returns the first
predicate match, whose liveness checks all pass, or reports the null
end of the list when no member matches. -/
theorem findWalk_spec (h : Heap) (hd tl : Option Nat) (pred : Nat → Bool) :
    ∀ (M : List Nat) (p : Option Nat),
      chainOk h p M = true →
      (match p with
       | none => hd = M.head?
       | some pp => (h pp).next = M.head?) →
      ((match M.getLast? with | some z => some z | none => p) = tl) →
      findWalk h hd tl pred (M.length + 1) M.head? = some (M.find? pred) := by
  intro M
  induction M with
  | nil => intro p _ _ _; rfl
  | cons c rest ih =>
      intro p hchain hp htl
      obtain ⟨hcp, hcn, hrest⟩ := (chainOk_cons_iff h p c rest).mp hchain
      have hhd : hd = some c ∨ ∃ pp, p = some pp ∧ (h pp).next = some c := by
        cases p with
        | none => exact Or.inl (by simpa using hp)
        | some pp => exact Or.inr ⟨pp, rfl, by simpa using hp⟩
      by_cases hpc : pred c = true
      · have hok1 : (match (h c).next with
            | some nn => (h nn).prev == some c
            | none => tl == some c) = true := by
          rw [hcn]
          cases rest with
          | nil =>
              have htlc : tl = some c := by simpa using htl.symm
              show (tl == some c) = true
              rw [htlc]
              exact beq_self_eq_true _
          | cons r rest2 =>
              obtain ⟨hrp, -, -⟩ := (chainOk_cons_iff h (some c) r rest2).mp hrest
              show ((h r).prev == some c) = true
              rw [hrp]
              exact beq_self_eq_true _
        have hok2 : (match (h c).prev with
            | some pp => (h pp).next == some c
            | none => hd == some c) = true := by
          rw [hcp]
          rcases hhd with hh1 | ⟨pp, hpp, hppn⟩
          · cases p with
            | none =>
                show (hd == some c) = true
                rw [hh1]
                exact beq_self_eq_true _
            | some pp =>
                show ((h pp).next == some c) = true
                rw [show (h pp).next = some c by simpa using hp]
                exact beq_self_eq_true _
          · subst hpp
            show ((h pp).next == some c) = true
            rw [hppn]
            exact beq_self_eq_true _
        show findWalk h hd tl pred (Nat.succ (rest.length + 1)) (some c)
          = some ((c :: rest).find? pred)
        simp only [findWalk]
        rw [if_pos hpc, hok1, hok2]
        simp only [Bool.and_self, if_true]
        rw [List.find?_cons_of_pos _ hpc]
      · have htl2 : (match rest.getLast? with | some z => some z | none => some c) = tl := by
          cases rest with
          | nil => simpa using htl
          | cons y rest2 =>
              have hne2 : (y :: rest2 : List Nat) ≠ [] := by simp
              have hwl := List.getLast?_eq_getLast_of_ne_nil hne2
              rw [List.getLast?_cons_cons, hwl] at htl
              rw [hwl]
              exact htl
        have hrec := ih (some c) hrest (by simpa using hcn) htl2
        show findWalk h hd tl pred (Nat.succ (rest.length + 1)) (some c)
          = some ((c :: rest).find? pred)
        simp only [findWalk]
        rw [if_neg (by simp [hpc]), hcn, List.find?_cons_of_neg _ (by simp [hpc])]
        exact hrec

/-- C8: on every quiescent list, find if returns the first node in head
to tail order whose payload satisfies the predicate and the null result
exactly when no reachable node satisfies it; and find, the payload
equality specialisation, returns null on the empty list. -/
theorem find_if_first_match :
    (∀ (s : ListSt) (L : List Nat) (pred : Nat → Bool) (f : Nat),
        represents s L →
        find_if s pred (f + 1) (L.length + 1) = some (L.find? pred))
    ∧ (∀ (val : Nat → Int), find emptyList val 0 1 1 = some none) := by
  constructor
  · intro s L pred f hr
    obtain ⟨hh, ht, hc, -⟩ := hr
    have htl : (match L.getLast? with | some z => some z | none => (none : Option Nat)) = s.tail := by
      cases hLl : L.getLast? with
      | none => simp [ht, hLl]
      | some z => simp [ht, hLl]
    have hw := findWalk_spec s.heap s.head s.tail pred L none hc hh htl
    rw [← hh] at hw
    show find_if s pred (Nat.succ f) (L.length + 1) = some (L.find? pred)
    simp only [find_if]
    rw [hw]
  · intro val
    rfl

/-- Witness for the find if theorem at a concrete input: searching the
two element list for the payload 2 returns node 2. -/
theorem find_if_first_match_witness :
    find_if S12 (fun n => n == 2) 1 3 = some (some 2) :=
  find_if_first_match.1 S12 [1, 2] (fun n => n == 2) 0
    ⟨by decide, by decide, by decide, by decide⟩

end LockFree
